import Mathlib

/-!
Verification of the dice-game engine (`src/dice_game.rs`, `src/main.rs`).

The board is a flat store of `2 * columns * rows` optional die values,
split into a red half followed by a blue half; within a half, cells are
grouped by column, each column holding `rows` consecutive slots.
Fallible operations (Rust `panic!` / failed `assert!`) are modelled by
`Option`-returning functions, `none` standing for the panic.
-/

set_option maxHeartbeats 1000000

namespace DiceGame

/-- The two players (`enum Team` in the source). -/
inductive Team
  | Red
  | Blue
deriving DecidableEq

/-- The opponent of a team (the source writes the two cases out inline). -/
def Team.other : Team → Team
  | Team.Red => Team.Blue
  | Team.Blue => Team.Red

/-- Turn state (`enum GameState` in the source): `Starting` is the spec's
`NotStarted`, `Done` is the spec's `Finished`. -/
inductive GameState
  | Starting
  | RedsTurn
  | BluesTurn
  | Done
deriving DecidableEq

/-- `struct Board`: flat cell store plus the two dimensions. -/
structure Board where
  data : List (Option Nat)
  columns : Nat
  rows : Nat
deriving DecidableEq

/-- `Board::empty_board`. -/
def Board.empty_board (columns rows : Nat) : Board :=
  { data := List.replicate (rows * columns * 2) none, columns := columns, rows := rows }

/-- The length invariant every board built by the program satisfies. -/
def Board.wf (b : Board) : Prop :=
  b.data.length = b.rows * b.columns * 2

instance (b : Board) : Decidable b.wf := by
  unfold Board.wf
  infer_instance

/-- `Board::get_board_half`: the team's contiguous half of the store. -/
def Board.get_board_half (b : Board) (t : Team) : List (Option Nat) :=
  match t with
  | Team.Red => b.data.take (b.rows * b.columns)
  | Team.Blue => b.data.drop (b.rows * b.columns)

/-- `Board::get_column`: slice `[column*rows, column*rows + rows)` of the
team's half.  The source asserts `column < columns`; out of range the
slice is empty here, and every claim is stated within range. -/
def Board.get_column (b : Board) (t : Team) (c : Nat) : List (Option Nat) :=
  ((b.get_board_half t).drop (c * b.rows)).take b.rows

/-- The `team_offset` computed by the `match team` in `Board::insert`. -/
def Board.teamOffset (b : Board) (t : Team) : Nat :=
  match t with
  | Team.Red => 0
  | Team.Blue => b.columns * b.rows

/-- The `opponent_team_offset` computed by the `match team` in `Board::insert`. -/
def Board.opponentOffset (b : Board) (t : Team) : Nat :=
  match t with
  | Team.Red => b.columns * b.rows
  | Team.Blue => 0

/-- The first scan loop of `Board::insert`: walk indices
`start, start+1, ..., start+len-1` and remember the last one holding
`None`.  Out-of-range reads (impossible on well-formed calls) default
to `none`. -/
def findLastNone (data : List (Option Nat)) (start len : Nat) : Option Nat :=
  (List.range len).foldl
    (fun acc j => if data.getD (start + j) none = none then some (start + j) else acc)
    none

/-- The second loop of `Board::insert`: clear every cell in
`[start, start+len)` whose value equals `Some roll`. -/
def clearMatching (data : List (Option Nat)) (start len roll : Nat) : List (Option Nat) :=
  (List.range len).foldl
    (fun d j => if d.getD (start + j) none = some roll then d.set (start + j) none else d)
    data

/-- `Board::insert`: `none` models the panics (failed
`assert!(column < self.columns)` or a full column). -/
def Board.insert (b : Board) (t : Team) (c roll : Nat) : Option Board :=
  if c < b.columns then
    match findLastNone b.data (b.teamOffset t + c * b.rows) b.rows with
    | some idx =>
        some { b with
                data := clearMatching (b.data.set idx (some roll))
                  (b.opponentOffset t + c * b.rows) b.rows roll }
    | none => none
  else none

/-- `Board::has_space`: some cell of the column is unfilled. -/
def Board.has_space (b : Board) (t : Team) (c : Nat) : Bool :=
  (b.get_column t c).any (fun o => o.isNone)

/-- `Board::is_board_side_filled`: no column of the side has space. -/
def Board.is_board_side_filled (b : Board) (t : Team) : Bool :=
  (List.range b.columns).all (fun i => !(b.has_space t i))

/-- `Board::calculate_column_score`: the source counts each face value's
occurrences among the column's filled cells in a hash map, then sums
`value * count * count` over the map's entries. -/
def Board.calculate_column_score (b : Board) (t : Team) (c : Nat) : Nat :=
  let vals := (b.get_column t c).filterMap id
  (vals.dedup.map (fun v => v * vals.count v * vals.count v)).sum

/-- `Board::calculate_score`: sum of the column scores. -/
def Board.calculate_score (b : Board) (t : Team) : Nat :=
  ((List.range b.columns).map (fun i => b.calculate_column_score t i)).sum

/-- The side to move in a state, `none` for `Starting`/`Done` (each
strategy writes this match inline and panics on the `_` arm). -/
def activeTeam : GameState → Option Team
  | GameState.RedsTurn => some Team.Red
  | GameState.BluesTurn => some Team.Blue
  | GameState.Starting => none
  | GameState.Done => none

/-- The `valid_answers` vector both strategies build: every column where
the side has space, pushed in ascending index order. -/
def validAnswers (b : Board) (t : Team) : List Nat :=
  (List.range b.columns).filter (fun i => b.has_space t i)

/-- A strategy as stored in `Game`: board, state, die roll, plus the value
the strategy's internal `thread_rng` call produced (`gen_range(0..len)`
is modelled as `draw % len`); `none` models a panic. -/
def Strategy : Type :=
  Board → GameState → Nat → Nat → Option Nat

/-- `strategy_random` from `src/main.rs`: a uniformly random legal column;
panics outside the two active-turn states and when no column is legal
(`gen_range` on an empty range). -/
def strategy_random : Strategy := fun b st _ draw =>
  match activeTeam st with
  | none => none
  | some team =>
      let valid := validAnswers b team
      if valid.length = 0 then none
      else some (valid.getD (draw % valid.length) 0)

/-- The loop body of `strategy_min_max`: evaluate one candidate column
on a cloned board and adopt it when its improvement strictly exceeds the
running best (a panicking clone insert aborts the whole call). -/
def minMaxBody (b : Board) (team : Team) (roll : Nat)
    (best : Nat × Int) (answer : Nat) : Option (Nat × Int) :=
  match b.insert team answer roll with
  | none => none
  | some board_copy =>
      let own_score : Int := b.calculate_score team
      let opposite_score : Int := b.calculate_score team.other
      let new_own_score : Int := board_copy.calculate_score team
      let new_opposite_score : Int := board_copy.calculate_score team.other
      let current_diff : Int := own_score - opposite_score
      let future_diff : Int := new_own_score - new_opposite_score
      let improvement : Int := future_diff - current_diff
      some (if best.2 < improvement then (answer, improvement) else best)

/-- `strategy_min_max` from `src/main.rs`: seed the best improvement with
the roll and the best answer with a random legal column, then scan every
legal column, adopting one exactly when its score-differential
improvement on a cloned board strictly exceeds the running best. -/
def strategy_min_max : Strategy := fun b st roll draw =>
  match activeTeam st with
  | none => none
  | some team =>
      let valid := validAnswers b team
      if valid.length = 0 then none
      else
        let index := draw % valid.length
        (List.foldlM (minMaxBody b team roll)
          (valid.getD index 0, (roll : Int)) valid).map Prod.fst

/-- Score differential, own side minus opponent, as the lookahead
strategy computes it. -/
def scoreDiff (b : Board) (t : Team) : Int :=
  (b.calculate_score t : Int) - (b.calculate_score t.other : Int)

/-- The one-ply improvement the strategy attributes to a column: the
differential after the hypothetical insertion minus the baseline
differential (0 in the never-reached case of a panicking clone insert). -/
def improv (b : Board) (t : Team) (roll c : Nat) : Int :=
  match b.insert t c roll with
  | some board_copy => scoreDiff board_copy t - scoreDiff b t
  | none => 0

/-- The running best the scan ends with: the roll-seeded threshold joined
with every legal column's improvement. -/
def bestImprove (b : Board) (t : Team) (roll : Nat) : Int :=
  (validAnswers b t).foldl (fun m c => max m (improv b t roll c)) (roll : Int)

/-- Declarative reading of the scan, following the claim's words: when
some legal column's improvement strictly exceeds the roll, the earliest
legal column attaining the maximal improvement is chosen; otherwise the
pre-chosen random legal column is kept. -/
def minMaxPick (b : Board) (t : Team) (roll draw : Nat) : Nat :=
  if (roll : Int) < bestImprove b t roll then
    ((validAnswers b t).find?
      (fun c => decide (bestImprove b t roll ≤ improv b t roll c))).getD
      ((validAnswers b t).getD (draw % (validAnswers b t).length) 0)
  else (validAnswers b t).getD (draw % (validAnswers b t).length) 0

/-- `struct Game`. -/
structure Game where
  board : Board
  state : GameState
  strategy_red : Strategy
  strategy_blue : Strategy

/-- One call's worth of randomness for `advance`: the coin toss consumed
from `Starting`, the die roll, and the strategy's internal draw. -/
structure RandOracle where
  coin : Bool
  roll : Nat
  draw : Nat

/-- `Game::new`: fresh 3-by-3 board, `Starting` state. -/
def Game.new (strategy_red strategy_blue : Strategy) : Game :=
  { board := Board.empty_board 3 3, state := GameState.Starting,
    strategy_red := strategy_red, strategy_blue := strategy_blue }

/-- `Game::advance`, fed one call's randomness; `none` models a panic in
the strategy or in `Board::insert`. -/
def Game.advance (g : Game) (o : RandOracle) : Option Game :=
  match g.state with
  | GameState.Starting =>
      some { g with state := if o.coin then GameState.RedsTurn else GameState.BluesTurn }
  | GameState.RedsTurn =>
      match g.strategy_red g.board GameState.RedsTurn o.roll o.draw with
      | none => none
      | some col =>
          match g.board.insert Team.Red col o.roll with
          | none => none
          | some b2 =>
              some { g with
                     board := b2
                     state := if b2.is_board_side_filled Team.Red
                              then GameState.Done else GameState.BluesTurn }
  | GameState.BluesTurn =>
      match g.strategy_blue g.board GameState.BluesTurn o.roll o.draw with
      | none => none
      | some col =>
          match g.board.insert Team.Blue col o.roll with
          | none => none
          | some b2 =>
              some { g with
                     board := b2
                     state := if b2.is_board_side_filled Team.Blue
                              then GameState.Done else GameState.RedsTurn }
  | GameState.Done => some g

/-- The `while` loop of `Game::run`, with explicit fuel: `some` with the
final game when the loop reaches `Done` within the allotted advances,
`none` when it has not (or a panic occurred). -/
def Game.runFuel : Nat → (Nat → RandOracle) → Game → Option Game
  | 0, _, _ => none
  | n + 1, o, g =>
      if g.state = GameState.Done then some g
      else
        match g.advance (o 0) with
        | some g2 => Game.runFuel n (fun i => o (i + 1)) g2
        | none => none

/-- The fresh 3-by-3 board. -/
def b0 : Board := Board.empty_board 3 3

/-- The board after Red inserts 4 into column 0 of the fresh board: the
highest-index slot of Red's column 0 holds the 4. -/
def bA : Board :=
  Board.mk [none, none, some 4, none, none, none, none, none, none,
            none, none, none, none, none, none, none, none, none] 3 3

/-- The board after Blue then inserts 4 into column 0: Blue keeps its 4,
Red's matching 4 is bumped away. -/
def bB : Board :=
  Board.mk [none, none, none, none, none, none, none, none, none,
            none, none, some 4, none, none, none, none, none, none] 3 3

/-- A board where Blue's column 1 holds three 4s: for Red, clearing them
with a rolled 4 is worth far more than the roll itself. -/
def bW : Board :=
  Board.mk [none, none, none, none, none, none, none, none, none,
            none, none, none, some 4, some 4, some 4, none, none, none] 3 3

/-- A finished game, to witness that `advance` is a no-op on `Done`. -/
def gDone : Game :=
  { board := b0, state := GameState.Done,
    strategy_red := strategy_random, strategy_blue := strategy_random }

/-- An oracle stream on which the engine never finishes: every roll is 4
and both random strategies always draw 0 (column 0), so each insertion
bumps the opponent's freshly placed 4 and no side ever fills. -/
def oLoop : Nat → RandOracle := fun _ => { coin := true, roll := 4, draw := 0 }

/-- An oracle stream on which the game finishes: Red always rolls 1, Blue
always rolls 2, both always draw 0 (first legal column), so no bump ever
fires and Red fills its side on its ninth turn. -/
def oTerm : Nat → RandOracle :=
  fun i => { coin := true, roll := if i % 2 = 1 then 1 else 2, draw := 0 }

/-- Column values 2,2,2 in Red's column 0, for the score examples. -/
def bEx1 : Board :=
  Board.mk [some 2, some 2, some 2, none, none, none, none, none, none,
            none, none, none, none, none, none, none, none, none] 3 3

/-- Column values 5,3 in Red's column 0, for the score examples. -/
def bEx2 : Board :=
  Board.mk [some 5, some 3, none, none, none, none, none, none, none,
            none, none, none, none, none, none, none, none, none] 3 3

end DiceGame

/-! The `Board` implementation duplicated in `src/main.rs`, translated
separately from that file so the two copies can be compared. -/

namespace MainSrc

open DiceGame

/-- `Board::empty_board` as duplicated in `src/main.rs`. -/
def empty_board (columns rows : Nat) : Board :=
  { data := List.replicate (rows * columns * 2) none, columns := columns, rows := rows }

/-- `Board::get_board_half` as duplicated in `src/main.rs`. -/
def get_board_half (b : Board) (t : Team) : List (Option Nat) :=
  match t with
  | Team.Red => b.data.take (b.rows * b.columns)
  | Team.Blue => b.data.drop (b.rows * b.columns)

/-- `Board::get_column` as duplicated in `src/main.rs`. -/
def get_column (b : Board) (t : Team) (c : Nat) : List (Option Nat) :=
  ((get_board_half b t).drop (c * b.rows)).take b.rows

/-- The first scan loop of the `src/main.rs` `Board::insert` (it compares
with `== None` where `src/dice_game.rs` calls `.is_none()`). -/
def findLastNoneM (data : List (Option Nat)) (start len : Nat) : Option Nat :=
  (List.range len).foldl
    (fun acc j => if data.getD (start + j) none = none then some (start + j) else acc)
    none

/-- The bump loop of the `src/main.rs` `Board::insert`. -/
def clearMatchingM (data : List (Option Nat)) (start len roll : Nat) : List (Option Nat) :=
  (List.range len).foldl
    (fun d j => if d.getD (start + j) none = some roll then d.set (start + j) none else d)
    data

/-- `Board::insert` as duplicated in `src/main.rs`. -/
def insert (b : Board) (t : Team) (c roll : Nat) : Option Board :=
  if c < b.columns then
    match findLastNoneM b.data (b.teamOffset t + c * b.rows) b.rows with
    | some idx =>
        some { b with
                data := clearMatchingM (b.data.set idx (some roll))
                  (b.opponentOffset t + c * b.rows) b.rows roll }
    | none => none
  else none

/-- `Board::has_space` as duplicated in `src/main.rs`. -/
def has_space (b : Board) (t : Team) (c : Nat) : Bool :=
  (get_column b t c).any (fun o => o.isNone)

/-- `Board::is_board_side_filled` as duplicated in `src/main.rs`. -/
def is_board_side_filled (b : Board) (t : Team) : Bool :=
  (List.range b.columns).all (fun i => !(has_space b t i))

/-- `Board::calculate_column_score` as duplicated in `src/main.rs`. -/
def calculate_column_score (b : Board) (t : Team) (c : Nat) : Nat :=
  let vals := (get_column b t c).filterMap id
  (vals.dedup.map (fun v => v * vals.count v * vals.count v)).sum

/-- `Board::calculate_score` as duplicated in `src/main.rs`. -/
def calculate_score (b : Board) (t : Team) : Nat :=
  ((List.range b.columns).map (fun i => calculate_column_score b t i)).sum

end MainSrc

namespace DiceGame

/-- Unfolding of the insert scan: the last index is inspected last, so it
wins when empty. -/
theorem findLastNone_succ (data : List (Option Nat)) (start n : Nat) :
    findLastNone data start (n + 1) =
      if data.getD (start + n) none = none then some (start + n)
      else findLastNone data start n := by
  unfold findLastNone
  rw [List.range_succ, List.foldl_append]
  simp

/-- What the insert scan returns: an empty slot in range, with every
later slot in the scanned range filled — the highest-index empty slot. -/
theorem findLastNone_eq_some (data : List (Option Nat)) (start len j : Nat)
    (h : findLastNone data start len = some j) :
    start ≤ j ∧ j < start + len ∧ data.getD j none = none ∧
      ∀ i, j < i → i < start + len → data.getD i none ≠ none := by
  induction len with
  | zero => simp [findLastNone] at h
  | succ n ih =>
    rw [findLastNone_succ] at h
    by_cases hc : data.getD (start + n) none = none
    · rw [if_pos hc] at h
      cases h
      exact ⟨Nat.le_add_right _ _, by omega, hc, fun i hi1 hi2 => by omega⟩
    · rw [if_neg hc] at h
      obtain ⟨h1, h2, h3, h4⟩ := ih h
      refine ⟨h1, by omega, h3, fun i hi1 hi2 => ?_⟩
      by_cases hin : i = start + n
      · rw [hin]; exact hc
      · exact h4 i hi1 (by omega)

/-- When the insert scan fails, every slot in the scanned range is filled. -/
theorem findLastNone_eq_none (data : List (Option Nat)) (start len : Nat)
    (h : findLastNone data start len = none) :
    ∀ i, start ≤ i → i < start + len → data.getD i none ≠ none := by
  induction len with
  | zero => intro i h1 h2; exact absurd h2 (by omega)
  | succ n ih =>
    rw [findLastNone_succ] at h
    by_cases hc : data.getD (start + n) none = none
    · rw [if_pos hc] at h; cases h
    · rw [if_neg hc] at h
      intro i h1 h2
      by_cases hin : i = start + n
      · rw [hin]; exact hc
      · exact ih h i h1 (by omega)

/-- One empty slot in range makes the insert scan succeed. -/
theorem findLastNone_isSome (data : List (Option Nat)) (start len i : Nat)
    (h1 : start ≤ i) (h2 : i < start + len) (h3 : data.getD i none = none) :
    (findLastNone data start len).isSome = true := by
  cases hf : findLastNone data start len with
  | some j => rfl
  | none => exact absurd h3 (findLastNone_eq_none data start len hf i h1 h2)

/-- Unfolding of the bump loop. -/
theorem clearMatching_succ (data : List (Option Nat)) (start n roll : Nat) :
    clearMatching data start (n + 1) roll =
      (if (clearMatching data start n roll).getD (start + n) none = some roll
       then (clearMatching data start n roll).set (start + n) none
       else clearMatching data start n roll) := by
  unfold clearMatching
  rw [List.range_succ, List.foldl_append]
  simp

/-- The bump loop keeps the store's length. -/
theorem clearMatching_length (data : List (Option Nat)) (start len roll : Nat) :
    (clearMatching data start len roll).length = data.length := by
  induction len with
  | zero => rfl
  | succ n ih =>
    rw [clearMatching_succ]
    split
    · rw [List.length_set]; exact ih
    · exact ih

/-- Pointwise reading of the bump loop: a cell is cleared exactly when it
lies in the scanned range and held the inserted value. -/
theorem clearMatching_getD (data : List (Option Nat)) (start len roll : Nat) :
    ∀ i, (clearMatching data start len roll).getD i none =
      if start ≤ i ∧ i < start + len ∧ data.getD i none = some roll then none
      else data.getD i none := by
  induction len with
  | zero =>
    intro i
    rw [if_neg]
    · rfl
    · rintro ⟨h1, h2, -⟩; omega
  | succ n ih =>
    intro i
    have hread : (clearMatching data start n roll).getD (start + n) none =
        data.getD (start + n) none := by
      rw [ih]
      rw [if_neg]
      rintro ⟨-, h2, -⟩; omega
    rw [clearMatching_succ]
    by_cases hm : (clearMatching data start n roll).getD (start + n) none = some roll
    · rw [if_pos hm]
      by_cases hi : i = start + n
      · subst hi
        have hset : ((clearMatching data start n roll).set (start + n) none).getD
            (start + n) none = none := by
          rw [List.getD_eq_getElem?_getD, List.getElem?_set]
          split
          · split
            · rfl
            · rfl
          · omega
        rw [hset, if_pos]
        exact ⟨Nat.le_add_right _ _, by omega, by rw [← hread]; exact hm⟩
      · rw [List.getD_eq_getElem?_getD, List.getElem?_set_ne (fun h => hi h.symm),
          ← List.getD_eq_getElem?_getD, ih i]
        by_cases hcond : start ≤ i ∧ i < start + n ∧ data.getD i none = some roll
        · rw [if_pos hcond, if_pos ⟨hcond.1, by omega, hcond.2.2⟩]
        · rw [if_neg hcond, if_neg]
          rintro ⟨g1, g2, g3⟩
          exact hcond ⟨g1, by omega, g3⟩
    · rw [if_neg hm, ih i]
      by_cases hi : i = start + n
      · subst hi
        rw [if_neg (by rintro ⟨-, h2, -⟩; omega), if_neg]
        rintro ⟨-, -, g3⟩
        exact hm (by rw [hread]; exact g3)
      · by_cases hcond : start ≤ i ∧ i < start + n ∧ data.getD i none = some roll
        · rw [if_pos hcond, if_pos ⟨hcond.1, by omega, hcond.2.2⟩]
        · rw [if_neg hcond, if_neg]
          rintro ⟨g1, g2, g3⟩
          exact hcond ⟨g1, by omega, g3⟩

/-- A column cell read through the slicing equals the flat-store cell at
`teamOffset + column * rows + i`. -/
theorem get_column_getD (b : Board) (t : Team) (c i : Nat)
    (hc : c < b.columns) (hi : i < b.rows) :
    (b.get_column t c).getD i none =
      b.data.getD (b.teamOffset t + c * b.rows + i) none := by
  have hlt : c * b.rows + i < b.rows * b.columns := by
    have h1 : c * b.rows + i < (c + 1) * b.rows := by
      rw [Nat.succ_mul]; omega
    have h2 : (c + 1) * b.rows ≤ b.columns * b.rows := Nat.mul_le_mul_right _ hc
    calc c * b.rows + i < (c + 1) * b.rows := h1
      _ ≤ b.columns * b.rows := h2
      _ = b.rows * b.columns := Nat.mul_comm _ _
  cases t with
  | Red =>
    simp only [Board.get_column, Board.get_board_half, Board.teamOffset]
    rw [List.getD_eq_getElem?_getD, List.getD_eq_getElem?_getD,
      List.getElem?_take, if_pos hi, List.getElem?_drop, List.getElem?_take,
      if_pos hlt, Nat.zero_add]
  | Blue =>
    simp only [Board.get_column, Board.get_board_half, Board.teamOffset]
    rw [List.getD_eq_getElem?_getD, List.getD_eq_getElem?_getD,
      List.getElem?_take, if_pos hi, List.getElem?_drop, List.getElem?_drop]
    have : b.rows * b.columns + (c * b.rows + i) = b.columns * b.rows + c * b.rows + i := by
      rw [Nat.mul_comm b.rows b.columns]; omega
    rw [this]

/-- On a well-formed board an in-range column slice has exactly `rows` cells. -/
theorem get_column_length (b : Board) (t : Team) (c : Nat)
    (hwf : b.wf) (hc : c < b.columns) :
    (b.get_column t c).length = b.rows := by
  have hcr : c * b.rows + b.rows ≤ b.rows * b.columns := by
    have h2 : (c + 1) * b.rows ≤ b.columns * b.rows := Nat.mul_le_mul_right _ hc
    rw [Nat.mul_comm b.rows b.columns]
    calc c * b.rows + b.rows = (c + 1) * b.rows := by rw [Nat.succ_mul]
      _ ≤ b.columns * b.rows := h2
  have hlen : b.data.length = b.rows * b.columns * 2 := hwf
  cases t with
  | Red =>
    simp only [Board.get_column, Board.get_board_half]
    rw [List.length_take, List.length_drop, List.length_take, hlen]
    have h3 : b.rows * b.columns ⊓ b.rows * b.columns * 2 = b.rows * b.columns :=
      Nat.min_eq_left (by omega)
    rw [h3]
    exact Nat.min_eq_left (by omega)
  | Blue =>
    simp only [Board.get_column, Board.get_board_half]
    rw [List.length_take, List.length_drop, List.length_drop, hlen]
    exact Nat.min_eq_left (by omega)

/-- The cells of column `c` occupy indices below `columns * rows` within a half. -/
theorem col_block_le (b : Board) (c : Nat) (hc : c < b.columns) :
    c * b.rows + b.rows ≤ b.columns * b.rows := by
  have h2 : (c + 1) * b.rows ≤ b.columns * b.rows := Nat.mul_le_mul_right _ hc
  rw [Nat.succ_mul] at h2
  omega

/-- The opponent offset is the opponent's team offset. -/
theorem oppOffset_eq (b : Board) (t : Team) :
    b.opponentOffset t = b.teamOffset t.other := by
  cases t <;> rfl

/-- Distinct (team, column) pairs occupy disjoint index blocks of the store. -/
theorem block_disjoint (b : Board) (t1 t2 : Team) (c1 c2 : Nat)
    (hc1 : c1 < b.columns) (hc2 : c2 < b.columns)
    (hne : t1 ≠ t2 ∨ c1 ≠ c2) (k : Nat)
    (h1 : b.teamOffset t1 + c1 * b.rows ≤ k)
    (h2 : k < b.teamOffset t1 + c1 * b.rows + b.rows) :
    ¬ (b.teamOffset t2 + c2 * b.rows ≤ k ∧
       k < b.teamOffset t2 + c2 * b.rows + b.rows) := by
  have hb1 := col_block_le b c1 hc1
  have hb2 := col_block_le b c2 hc2
  have hmono : ∀ x y : Nat, x < y → x * b.rows + b.rows ≤ y * b.rows := by
    intro x y hxy
    have h := Nat.mul_le_mul_right b.rows (show x + 1 ≤ y from hxy)
    rw [Nat.add_mul, Nat.one_mul] at h
    omega
  rcases hne with hne | hne
  · cases t1 <;> cases t2 <;>
      first
      | exact absurd rfl hne
      | (simp only [Board.teamOffset] at h1 h2 ⊢; omega)
  · rcases Nat.lt_or_ge c1 c2 with hlt | hge
    · have hm := hmono c1 c2 hlt
      cases t1 <;> cases t2 <;> (simp only [Board.teamOffset] at h1 h2 ⊢; omega)
    · have hgt : c2 < c1 := by omega
      have hm := hmono c2 c1 hgt
      cases t1 <;> cases t2 <;> (simp only [Board.teamOffset] at h1 h2 ⊢; omega)

/-- `has_space` through the flat store: some in-range cell of the column
block is unfilled. -/
theorem has_space_iff (b : Board) (t : Team) (c : Nat) (hwf : b.wf)
    (hc : c < b.columns) :
    b.has_space t c = true ↔
      ∃ i, i < b.rows ∧ b.data.getD (b.teamOffset t + c * b.rows + i) none = none := by
  have hlen := get_column_length b t c hwf hc
  rw [Board.has_space, List.any_eq_true]
  constructor
  · rintro ⟨o, ho, hno⟩
    obtain ⟨i, hi, hoi⟩ := List.mem_iff_getElem.1 ho
    refine ⟨i, by omega, ?_⟩
    rw [← get_column_getD b t c i hc (by omega), List.getD_eq_getElem _ _ hi, hoi]
    cases o with
    | none => rfl
    | some v => simp at hno
  · rintro ⟨i, hi, hnone⟩
    have hgi : (b.get_column t c).getD i none = none := by
      rw [get_column_getD b t c i hc hi]; exact hnone
    have hilt : i < (b.get_column t c).length := by omega
    rw [List.getD_eq_getElem _ _ hilt] at hgi
    refine ⟨(b.get_column t c).get ⟨i, hilt⟩, List.get_mem _ _ hilt, ?_⟩
    rw [List.get_eq_getElem, hgi]
    rfl

/-- Full description of a successful `insert`: the written slot is the
highest-index empty slot of the caller's column block, and every other
cell changes exactly according to the bump loop over the opponent's
column block. -/
theorem insert_eq_some (b : Board) (t : Team) (c roll : Nat) (hwf : b.wf)
    (hc : c < b.columns) (hs : b.has_space t c = true) :
    ∃ b2 j,
      b.insert t c roll = some b2 ∧
      b2.columns = b.columns ∧ b2.rows = b.rows ∧
      b2.data.length = b.data.length ∧
      b.teamOffset t + c * b.rows ≤ j ∧
      j < b.teamOffset t + c * b.rows + b.rows ∧
      b.data.getD j none = none ∧
      (∀ i, j < i → i < b.teamOffset t + c * b.rows + b.rows →
        b.data.getD i none ≠ none) ∧
      (∀ i, b2.data.getD i none =
        if i = j then some roll
        else if b.opponentOffset t + c * b.rows ≤ i ∧
                i < b.opponentOffset t + c * b.rows + b.rows ∧
                b.data.getD i none = some roll then none
        else b.data.getD i none) := by
  have hcomm : b.rows * b.columns = b.columns * b.rows := Nat.mul_comm _ _
  have hcr := col_block_le b c hc
  have hlen : b.data.length = b.rows * b.columns * 2 := hwf
  obtain ⟨i0, hi0, hi0n⟩ := (has_space_iff b t c hwf hc).1 hs
  have hsome := findLastNone_isSome b.data (b.teamOffset t + c * b.rows) b.rows
    (b.teamOffset t + c * b.rows + i0) (by omega) (by omega) hi0n
  obtain ⟨j, hj⟩ := Option.isSome_iff_exists.1 hsome
  obtain ⟨hj1, hj2, hj3, hj4⟩ := findLastNone_eq_some _ _ _ _ hj
  have hjlen : j < b.data.length := by
    cases t <;> (simp only [Board.teamOffset] at hj2; omega)
  have hdisj : ¬ (b.opponentOffset t + c * b.rows ≤ j ∧
      j < b.opponentOffset t + c * b.rows + b.rows) := by
    rw [oppOffset_eq]
    exact block_disjoint b t t.other c c hc hc
      (Or.inl (by cases t <;> simp [Team.other])) j hj1 hj2
  have hset : ∀ i, (b.data.set j (some roll)).getD i none =
      if i = j then some roll else b.data.getD i none := by
    intro i
    by_cases h : i = j
    · subst h
      rw [List.getD_eq_getElem?_getD, List.getElem?_set_self hjlen, if_pos rfl]
      rfl
    · rw [List.getD_eq_getElem?_getD, List.getElem?_set_ne (fun hh => h hh.symm),
        ← List.getD_eq_getElem?_getD, if_neg h]
  refine ⟨Board.mk (clearMatching (b.data.set j (some roll))
      (b.opponentOffset t + c * b.rows) b.rows roll) b.columns b.rows, j,
    ?_, rfl, rfl, ?_, hj1, hj2, hj3, hj4, ?_⟩
  · unfold Board.insert
    rw [if_pos hc, hj]
  · show (clearMatching _ _ _ _).length = _
    rw [clearMatching_length, List.length_set]
  · intro i
    show (clearMatching _ _ _ _).getD i none = _
    rw [clearMatching_getD]
    by_cases hij : i = j
    · subst hij
      have hcond : ¬ (b.opponentOffset t + c * b.rows ≤ i ∧
          i < b.opponentOffset t + c * b.rows + b.rows ∧
          (b.data.set i (some roll)).getD i none = some roll) := by
        rintro ⟨g1, g2, -⟩
        exact hdisj ⟨g1, g2⟩
      rw [if_neg hcond, hset i, if_pos rfl, if_pos rfl]
    · have hsi := hset i
      rw [if_neg hij] at hsi
      rw [hsi, if_neg hij]

/-- C9: `is_side_filled(side)` returns true exactly when `has_space(side, c)`
returns false for every column `c < columns`. -/
theorem is_side_filled_iff (b : Board) (t : Team) :
    b.is_board_side_filled t = true ↔
      ∀ c, c < b.columns → b.has_space t c = false := by
  rw [Board.is_board_side_filled, List.all_eq_true]
  constructor
  · intro h c hc
    have hx := h c (List.mem_range.2 hc)
    simpa using hx
  · intro h x hx
    simp [h x (List.mem_range.1 hx)]

/-- Closed instance of the side-filled characterisation on the fresh board. -/
theorem is_side_filled_iff_witness :
    b0.is_board_side_filled Team.Red = true ↔
      ∀ c, c < b0.columns → b0.has_space Team.Red c = false :=
  is_side_filled_iff b0 Team.Red

/-- C8: once the state is `Done`, `advance` returns the game unchanged —
same state, same board cells, same strategy references. -/
theorem advance_done_noop (g : Game) (o : RandOracle)
    (h : g.state = GameState.Done) : g.advance o = some g := by
  unfold Game.advance
  rw [h]

/-- Closed instance of the `Done` no-op on a concrete finished game. -/
theorem advance_done_noop_witness : gDone.advance (oLoop 0) = some gDone :=
  advance_done_noop gDone (oLoop 0) rfl

/-- C6: `insert` panics exactly when the column index is out of range or
the column has no empty cell; under the precondition it always succeeds. -/
theorem insert_panic_iff (b : Board) (t : Team) (c v : Nat) (hwf : b.wf) :
    (b.insert t c v = none ↔ (b.columns ≤ c ∨ b.has_space t c = false)) ∧
    (c < b.columns → b.has_space t c = true → (b.insert t c v).isSome = true) := by
  constructor
  · constructor
    · intro h
      by_cases hc : c < b.columns
      · right
        unfold Board.insert at h
        rw [if_pos hc] at h
        cases hf : findLastNone b.data (b.teamOffset t + c * b.rows) b.rows with
        | some j => simp [hf] at h
        | none =>
          have hall := findLastNone_eq_none _ _ _ hf
          rw [Bool.eq_false_iff]
          intro hs
          obtain ⟨i, hi, hnone⟩ := (has_space_iff b t c hwf hc).1 hs
          exact hall _ (by omega) (by omega) hnone
      · left; omega
    · intro h
      by_cases hc : c < b.columns
      · rcases h with h | h
        · omega
        · unfold Board.insert
          rw [if_pos hc]
          cases hf : findLastNone b.data (b.teamOffset t + c * b.rows) b.rows with
          | none => rfl
          | some j =>
            exfalso
            obtain ⟨hj1, hj2, hj3, -⟩ := findLastNone_eq_some _ _ _ _ hf
            have hsp : b.has_space t c = true := by
              refine (has_space_iff b t c hwf hc).2
                ⟨j - (b.teamOffset t + c * b.rows), by omega, ?_⟩
              rw [show b.teamOffset t + c * b.rows +
                (j - (b.teamOffset t + c * b.rows)) = j from by omega]
              exact hj3
            rw [h] at hsp
            cases hsp
      · unfold Board.insert
        rw [if_neg hc]
  · intro hc hs
    obtain ⟨b2, j, he, -⟩ := insert_eq_some b t c v hwf hc hs
    rw [he]
    rfl

/-- Closed instance of the panic characterisation on the fresh board. -/
theorem insert_panic_iff_witness :
    b0.wf ∧
    ((b0.insert Team.Red 0 4 = none ↔
        (b0.columns ≤ 0 ∨ b0.has_space Team.Red 0 = false)) ∧
      (0 < b0.columns → b0.has_space Team.Red 0 = true →
        (b0.insert Team.Red 0 4).isSome = true)) :=
  ⟨by decide, insert_panic_iff b0 Team.Red 0 4 (by decide)⟩

/-- C1: with space available, `insert` writes the value into the
highest-index empty slot of the side's column in storage order and
leaves every other slot of that same column unchanged. -/
theorem insert_writes_last_empty_slot (b : Board) (t : Team) (c v : Nat)
    (hwf : b.wf) (hc : c < b.columns) (hs : b.has_space t c = true) :
    ∃ b2 j, b.insert t c v = some b2 ∧ j < b.rows ∧
      (b.get_column t c).getD j none = none ∧
      (∀ i, j < i → i < b.rows → (b.get_column t c).getD i none ≠ none) ∧
      (b2.get_column t c).getD j none = some v ∧
      (∀ i, i < b.rows → i ≠ j →
        (b2.get_column t c).getD i none = (b.get_column t c).getD i none) := by
  obtain ⟨b2, ja, he, hcols, hrows, hlen, hj1, hj2, hj3, hj4, hpt⟩ :=
    insert_eq_some b t c v hwf hc hs
  have hoff : ∀ x, b2.teamOffset x = b.teamOffset x := by
    intro x
    cases x <;> simp [Board.teamOffset, hcols, hrows]
  have hcol2 : ∀ i, i < b.rows →
      (b2.get_column t c).getD i none =
        b2.data.getD (b.teamOffset t + c * b.rows + i) none := by
    intro i hi
    rw [get_column_getD b2 t c i (by rw [hcols]; exact hc) (by rw [hrows]; exact hi),
      hoff, hrows]
  have hoppne : ∀ k, b.teamOffset t + c * b.rows ≤ k →
      k < b.teamOffset t + c * b.rows + b.rows →
      ¬ (b.opponentOffset t + c * b.rows ≤ k ∧
         k < b.opponentOffset t + c * b.rows + b.rows) := by
    intro k h1 h2
    rw [oppOffset_eq]
    exact block_disjoint b t t.other c c hc hc
      (Or.inl (by cases t <;> simp [Team.other])) k h1 h2
  refine ⟨b2, ja - (b.teamOffset t + c * b.rows), he, by omega, ?_, ?_, ?_, ?_⟩
  · rw [get_column_getD b t c _ hc (by omega),
      show b.teamOffset t + c * b.rows +
        (ja - (b.teamOffset t + c * b.rows)) = ja from by omega]
    exact hj3
  · intro i hi1 hi2
    rw [get_column_getD b t c i hc hi2]
    exact hj4 (b.teamOffset t + c * b.rows + i) (by omega) (by omega)
  · rw [hcol2 _ (by omega),
      show b.teamOffset t + c * b.rows +
        (ja - (b.teamOffset t + c * b.rows)) = ja from by omega,
      hpt ja, if_pos rfl]
  · intro i hi hij
    have h1 : ¬ (b.teamOffset t + c * b.rows + i = ja) := by omega
    have h2 : ¬ (b.opponentOffset t + c * b.rows ≤ b.teamOffset t + c * b.rows + i ∧
        b.teamOffset t + c * b.rows + i <
          b.opponentOffset t + c * b.rows + b.rows ∧
        b.data.getD (b.teamOffset t + c * b.rows + i) none = some v) := by
      rintro ⟨g1, g2, -⟩
      exact hoppne (b.teamOffset t + c * b.rows + i) (by omega) (by omega) ⟨g1, g2⟩
    rw [hcol2 i hi, hpt (b.teamOffset t + c * b.rows + i), if_neg h1, if_neg h2,
      get_column_getD b t c i hc hi]

/-- Closed instance of the last-empty-slot property on the fresh board. -/
theorem insert_writes_last_empty_slot_witness :
    ∃ b2 j, b0.insert Team.Red 0 5 = some b2 ∧ j < b0.rows ∧
      (b0.get_column Team.Red 0).getD j none = none ∧
      (∀ i, j < i → i < b0.rows → (b0.get_column Team.Red 0).getD i none ≠ none) ∧
      (b2.get_column Team.Red 0).getD j none = some 5 ∧
      (∀ i, i < b0.rows → i ≠ j →
        (b2.get_column Team.Red 0).getD i none = (b0.get_column Team.Red 0).getD i none) :=
  insert_writes_last_empty_slot b0 Team.Red 0 5 (by decide) (by decide) (by decide)

/-- C2: a single `insert(side, c, v)` clears every cell equal to `v` in
the opponent's same-indexed column, and changes no cell other than the
inserted slot and that opponent column; concretely, on a fresh board Red
inserting 4 into column 0 and then Blue inserting 4 into column 0 leaves
Red bumped to nothing and Blue with the 4 (scores 0 and 4). -/
theorem insert_bumps_opponent_column :
    (∀ (b : Board) (t : Team) (c v : Nat), b.wf → c < b.columns →
      b.has_space t c = true →
      ∃ b2 j, b.insert t c v = some b2 ∧ j < b.rows ∧
        (b2.get_column t c).getD j none = some v ∧
        (∀ i, i < b.rows →
          (b2.get_column t.other c).getD i none =
            (if (b.get_column t.other c).getD i none = some v then none
             else (b.get_column t.other c).getD i none)) ∧
        (∀ i, i < b.rows → i ≠ j →
          (b2.get_column t c).getD i none = (b.get_column t c).getD i none) ∧
        (∀ (t2 : Team) (c2 : Nat), c2 < b.columns → c2 ≠ c → ∀ i, i < b.rows →
          (b2.get_column t2 c2).getD i none = (b.get_column t2 c2).getD i none)) ∧
    (b0.insert Team.Red 0 4 = some bA ∧ bA.insert Team.Blue 0 4 = some bB ∧
      (∀ i, i < 3 → (bB.get_column Team.Red 0).getD i none = none) ∧
      (bB.get_column Team.Blue 0).getD 2 none = some 4 ∧
      bB.calculate_score Team.Red = 0 ∧ bB.calculate_score Team.Blue = 4) := by
  constructor
  · intro b t c v hwf hc hs
    obtain ⟨b2, ja, he, hcols, hrows, hlen, hj1, hj2, hj3, hj4, hpt⟩ :=
      insert_eq_some b t c v hwf hc hs
    have hoff : ∀ x, b2.teamOffset x = b.teamOffset x := by
      intro x
      cases x <;> simp [Board.teamOffset, hcols, hrows]
    have hcol2g : ∀ (x : Team) (c2 : Nat), c2 < b.columns → ∀ i, i < b.rows →
        (b2.get_column x c2).getD i none =
          b2.data.getD (b.teamOffset x + c2 * b.rows + i) none := by
      intro x c2 hc2 i hi
      rw [get_column_getD b2 x c2 i (by rw [hcols]; exact hc2)
        (by rw [hrows]; exact hi), hoff, hrows]
    have htne : t ≠ t.other := by cases t <;> simp [Team.other]
    have hopp : b.opponentOffset t + c * b.rows = b.teamOffset t.other + c * b.rows := by
      rw [oppOffset_eq]
    refine ⟨b2, ja - (b.teamOffset t + c * b.rows), he, by omega, ?_, ?_, ?_, ?_⟩
    · rw [hcol2g t c hc _ (by omega),
        show b.teamOffset t + c * b.rows +
          (ja - (b.teamOffset t + c * b.rows)) = ja from by omega,
        hpt ja, if_pos rfl]
    · intro i hi
      have hkja : ¬ (b.teamOffset t.other + c * b.rows + i = ja) := by
        intro hk
        exact block_disjoint b t.other t c c hc hc (Or.inl htne.symm)
          (b.teamOffset t.other + c * b.rows + i) (by omega) (by omega)
          ⟨by omega, by omega⟩
      rw [hcol2g t.other c hc i hi, hpt (b.teamOffset t.other + c * b.rows + i),
        if_neg hkja, get_column_getD b t.other c i hc hi]
      by_cases hkv : b.data.getD (b.teamOffset t.other + c * b.rows + i) none = some v
      · rw [if_pos ⟨by omega, by omega, hkv⟩, if_pos hkv]
      · rw [if_neg (by rintro ⟨-, -, g3⟩; exact hkv g3), if_neg hkv]
    · intro i hi hij
      have h1 : ¬ (b.teamOffset t + c * b.rows + i = ja) := by omega
      have h2 : ¬ (b.opponentOffset t + c * b.rows ≤ b.teamOffset t + c * b.rows + i ∧
          b.teamOffset t + c * b.rows + i <
            b.opponentOffset t + c * b.rows + b.rows ∧
          b.data.getD (b.teamOffset t + c * b.rows + i) none = some v) := by
        rintro ⟨g1, g2, -⟩
        rw [hopp] at g1 g2
        exact block_disjoint b t t.other c c hc hc (Or.inl htne)
          (b.teamOffset t + c * b.rows + i) (by omega) (by omega) ⟨g1, g2⟩
      rw [hcol2g t c hc i hi, hpt (b.teamOffset t + c * b.rows + i),
        if_neg h1, if_neg h2, get_column_getD b t c i hc hi]
    · intro t2 c2 hc2 hcne i hi
      have h1 : ¬ (b.teamOffset t2 + c2 * b.rows + i = ja) := by
        intro hk
        exact block_disjoint b t2 t c2 c hc2 hc (Or.inr hcne)
          (b.teamOffset t2 + c2 * b.rows + i) (by omega) (by omega)
          ⟨by omega, by omega⟩
      have h2 : ¬ (b.opponentOffset t + c * b.rows ≤ b.teamOffset t2 + c2 * b.rows + i ∧
          b.teamOffset t2 + c2 * b.rows + i <
            b.opponentOffset t + c * b.rows + b.rows ∧
          b.data.getD (b.teamOffset t2 + c2 * b.rows + i) none = some v) := by
        rintro ⟨g1, g2, -⟩
        rw [hopp] at g1 g2
        exact block_disjoint b t2 t.other c2 c hc2 hc (Or.inr hcne)
          (b.teamOffset t2 + c2 * b.rows + i) (by omega) (by omega) ⟨g1, g2⟩
      rw [hcol2g t2 c2 hc2 i hi, hpt (b.teamOffset t2 + c2 * b.rows + i),
        if_neg h1, if_neg h2, get_column_getD b t2 c2 i hc2 hi]
  · exact ⟨by decide, by decide, by decide, by decide, by decide, by decide⟩

/-- Closed instance of the bumping property at the scenario's first move. -/
theorem insert_bumps_opponent_column_witness :
    ∃ b2 j, b0.insert Team.Red 0 4 = some b2 ∧ j < b0.rows ∧
      (b2.get_column Team.Red 0).getD j none = some 4 ∧
      (∀ i, i < b0.rows →
        (b2.get_column Team.Red.other 0).getD i none =
          (if (b0.get_column Team.Red.other 0).getD i none = some 4 then none
           else (b0.get_column Team.Red.other 0).getD i none)) ∧
      (∀ i, i < b0.rows → i ≠ j →
        (b2.get_column Team.Red 0).getD i none = (b0.get_column Team.Red 0).getD i none) ∧
      (∀ (t2 : Team) (c2 : Nat), c2 < b0.columns → c2 ≠ 0 → ∀ i, i < b0.rows →
        (b2.get_column t2 c2).getD i none = (b0.get_column t2 c2).getD i none) :=
  insert_bumps_opponent_column.1 b0 Team.Red 0 4 (by decide) (by decide) (by decide)

/-- Summing `v * k * k` over the deduplicated values equals the
finset-indexed sum over the multiset of values. -/
theorem dedup_sum_eq_toFinset_sum (l : List Nat) :
    (l.dedup.map (fun v => v * l.count v * l.count v)).sum =
      Finset.sum (↑l : Multiset Nat).toFinset
        (fun v => v * Multiset.count v ↑l * Multiset.count v ↑l) := by
  have hdf : l.dedup.toFinset = l.toFinset := by
    ext x
    simp [List.mem_toFinset, List.mem_dedup]
  rw [List.toFinset_coe, ← hdf, List.sum_toFinset _ (List.nodup_dedup l)]
  simp [Multiset.coe_count]

/-- Summing a map over `List.range` equals the `Finset.range` sum. -/
theorem range_map_sum (n : Nat) (f : Nat → Nat) :
    ((List.range n).map f).sum = Finset.sum (Finset.range n) f := by
  induction n with
  | zero => rfl
  | succ m ih =>
    rw [List.range_succ, List.map_append, List.sum_append,
      Finset.sum_range_succ, ih]
    simp

/-- C5: a column's score is the sum over the distinct filled face values
`v` of `v * k * k`, where `k` counts `v`'s occurrences — a function of the
multiset of filled values only; the total score sums the column scores;
the spec's {2,2,2}, {5,3} and empty-column examples. -/
theorem column_score_spec :
    (∀ (b : Board) (t : Team) (c : Nat),
      b.calculate_column_score t c =
        Finset.sum (↑((b.get_column t c).filterMap id) : Multiset Nat).toFinset
          (fun v => v * Multiset.count v (↑((b.get_column t c).filterMap id) : Multiset Nat)
            * Multiset.count v (↑((b.get_column t c).filterMap id) : Multiset Nat))) ∧
    (∀ (b : Board) (t : Team),
      b.calculate_score t =
        Finset.sum (Finset.range b.columns) (fun c => b.calculate_column_score t c)) ∧
    bEx1.calculate_column_score Team.Red 0 = 18 ∧
    bEx2.calculate_column_score Team.Red 0 = 8 ∧
    b0.calculate_column_score Team.Red 0 = 0 := by
  refine ⟨?_, ?_, by decide, by decide, by decide⟩
  · intro b t c
    exact dedup_sum_eq_toFinset_sum ((b.get_column t c).filterMap id)
  · intro b t
    exact range_map_sum b.columns (fun c => b.calculate_column_score t c)

/-- C7: the random strategy panics outside the two active-turn states; in
an active state with a legal column available it returns the legal column
selected by the uniform draw, which is in range and has space. -/
theorem strategy_random_spec :
    (∀ (b : Board) (r d : Nat),
      strategy_random b GameState.Starting r d = none ∧
      strategy_random b GameState.Done r d = none) ∧
    (∀ (b : Board) (st : GameState) (t : Team) (r d : Nat),
      activeTeam st = some t → validAnswers b t ≠ [] →
      ∃ c, strategy_random b st r d = some c ∧
        c = (validAnswers b t).getD (d % (validAnswers b t).length) 0 ∧
        c < b.columns ∧ b.has_space t c = true) := by
  constructor
  · intro b r d
    exact ⟨rfl, rfl⟩
  · intro b st t r d hst hne
    have hlen : 0 < (validAnswers b t).length := List.length_pos.2 hne
    have hidx : d % (validAnswers b t).length < (validAnswers b t).length :=
      Nat.mod_lt _ hlen
    have hmem : (validAnswers b t).getD (d % (validAnswers b t).length) 0 ∈
        validAnswers b t := by
      rw [List.getD_eq_getElem _ _ hidx]
      exact List.getElem_mem _
    rw [validAnswers, List.mem_filter, List.mem_range] at hmem
    refine ⟨(validAnswers b t).getD (d % (validAnswers b t).length) 0,
      ?_, rfl, hmem.1, hmem.2⟩
    simp only [strategy_random, hst]
    rw [if_neg (by omega)]

/-- Closed instance of the random-strategy contract on the fresh board. -/
theorem strategy_random_spec_witness :
    ∃ c, strategy_random b0 GameState.RedsTurn 1 0 = some c ∧
      c = (validAnswers b0 Team.Red).getD (0 % (validAnswers b0 Team.Red).length) 0 ∧
      c < b0.columns ∧ b0.has_space Team.Red c = true :=
  strategy_random_spec.2 b0 GameState.RedsTurn Team.Red 1 0 rfl (by decide)

/-- C3 (amended): whenever the run loop returns, the final state is
`Done`; the claimed universal turn bound is refuted separately. -/
theorem run_ends_done (n : Nat) (o : Nat → RandOracle) (g g2 : Game)
    (h : Game.runFuel n o g = some g2) : g2.state = GameState.Done := by
  induction n generalizing o g with
  | zero => cases h
  | succ m ih =>
    rw [Game.runFuel] at h
    by_cases hd : g.state = GameState.Done
    · rw [if_pos hd] at h
      cases h
      exact hd
    · rw [if_neg hd] at h
      cases ha : g.advance (o 0) with
      | none =>
        rw [ha] at h
        exact Option.noConfusion h
      | some g3 =>
        rw [ha] at h
        exact ih _ _ h

/-- C3 counterexample: on the all-fours, always-column-0 oracle stream a
fresh random-vs-random game is still unfinished after 18 advances — a
coin flip plus 17 completed turns — because each insertion bumps the
opponent's freshly placed 4; so `run()` is not guaranteed to terminate
within 12 turns (nor within `2 * columns * rows` turns). -/
theorem run_turn_bound_fails :
    (Game.runFuel 19 oLoop (Game.new strategy_random strategy_random)).isNone = true := by
  rfl

/-- Closed instance of the amended claim: a run that does return ends in
`Done` (Red rolls only 1s, Blue only 2s, both always pick the first legal
column, and Red fills its side on its ninth turn). -/
theorem run_ends_done_witness :
    ∃ g2, Game.runFuel 19 oTerm (Game.new strategy_random strategy_random) = some g2 ∧
      g2.state = GameState.Done := by
  cases h : Game.runFuel 19 oTerm (Game.new strategy_random strategy_random) with
  | none =>
    have hs : (Game.runFuel 19 oTerm
        (Game.new strategy_random strategy_random)).isSome = true := by rfl
    rw [h] at hs
    cases hs
  | some g2 => exact ⟨g2, rfl, run_ends_done 19 oTerm _ g2 h⟩

/-- The second component of the lookahead scan is the running maximum of
the improvements, seeded by the initial threshold. -/
theorem scan_foldl_snd (f : Nat → Int) (l : List Nat) :
    ∀ p : Nat × Int,
      (List.foldl (fun q c => if q.2 < f c then (c, f c) else q) p l).2 =
        List.foldl (fun m c => max m (f c)) p.2 l := by
  induction l with
  | nil => intro p; rfl
  | cons c cs ih =>
    intro p
    rw [List.foldl_cons, List.foldl_cons, ih]
    by_cases h : p.2 < f c
    · rw [if_pos h]
      congr 1
      exact (max_eq_right (le_of_lt h)).symm
    · rw [if_neg h]
      congr 1
      exact (max_eq_left (not_lt.1 h)).symm

/-- The running maximum never drops below its seed. -/
theorem foldl_max_le_init (f : Nat → Int) (l : List Nat) :
    ∀ m : Int, m ≤ List.foldl (fun m2 c => max m2 (f c)) m l := by
  induction l with
  | nil => intro m; exact le_refl m
  | cons c cs ih =>
    intro m
    exact le_trans (le_max_left m (f c)) (ih (max m (f c)))

/-- Every scanned element's value is bounded by the running maximum. -/
theorem foldl_max_mem_le (f : Nat → Int) (l : List Nat) :
    ∀ (m : Int) (x : Nat), x ∈ l →
      f x ≤ List.foldl (fun m2 c => max m2 (f c)) m l := by
  induction l with
  | nil => intro m x hx; cases hx
  | cons c cs ih =>
    intro m x hx
    rw [List.foldl_cons]
    rcases List.mem_cons.1 hx with h | h
    · subst h
      exact le_trans (le_max_right m (f x)) (foldl_max_le_init f cs _)
    · exact ih _ x h

/-- The running maximum is either the seed or attained by some element. -/
theorem foldl_max_cases (f : Nat → Int) (l : List Nat) :
    ∀ m : Int, List.foldl (fun m2 c => max m2 (f c)) m l = m ∨
      ∃ x ∈ l, List.foldl (fun m2 c => max m2 (f c)) m l = f x := by
  induction l with
  | nil => intro m; exact Or.inl rfl
  | cons c cs ih =>
    intro m
    rcases ih (max m (f c)) with h | ⟨x, hx, hfx⟩
    · rw [List.foldl_cons, h]
      rcases max_cases m (f c) with ⟨he, -⟩ | ⟨he, -⟩
      · exact Or.inl he
      · exact Or.inr ⟨c, List.mem_cons_self _ _, he⟩
    · refine Or.inr ⟨x, List.mem_cons_of_mem _ hx, ?_⟩
      rw [List.foldl_cons]
      exact hfx

/-- When no element beats the seed, the scan keeps its starting pair. -/
theorem scan_foldl_stay (f : Nat → Int) (l : List Nat) :
    ∀ p : Nat × Int, (∀ c ∈ l, f c ≤ p.2) →
      List.foldl (fun q c => if q.2 < f c then (c, f c) else q) p l = p := by
  induction l with
  | nil => intro p h; rfl
  | cons c cs ih =>
    intro p h
    rw [List.foldl_cons, if_neg (not_lt.2 (h c (List.mem_cons_self _ _)))]
    exact ih p (fun x hx => h x (List.mem_cons_of_mem _ hx))

/-- When the scan's final maximum strictly beats the seed, its first
component is the earliest element attaining that maximum: strict
comparison means later ties never replace the incumbent. -/
theorem scan_foldl_fst (f : Nat → Int) :
    ∀ (l : List Nat) (p : Nat × Int) (M : Int),
      (List.foldl (fun q c => if q.2 < f c then (c, f c) else q) p l).2 = M →
      p.2 < M →
      (List.foldl (fun q c => if q.2 < f c then (c, f c) else q) p l).1 =
        (l.find? (fun c => decide (M ≤ f c))).getD p.1 := by
  intro l
  induction l with
  | nil =>
    intro p M hM hlt
    rw [← hM] at hlt
    exact absurd hlt (lt_irrefl _)
  | cons c cs ih =>
    intro p M hM hlt
    rw [List.foldl_cons] at hM ⊢
    by_cases hp : p.2 < f c
    · rw [if_pos hp] at hM ⊢
      have hM2 : List.foldl (fun m2 c2 => max m2 (f c2)) (f c) cs = M := by
        rw [scan_foldl_snd] at hM
        exact hM
      have hfcM : f c ≤ M := by
        have := foldl_max_le_init f cs (f c)
        omega
      by_cases hcM : f c < M
      · have hfst := ih (c, f c) M hM hcM
        rw [hfst, List.find?_cons]
        have hpc : decide (M ≤ f c) = false := by
          simp only [decide_eq_false_iff_not, not_le]
          exact hcM
        rw [hpc]
        have hex : ∃ x ∈ cs, decide (M ≤ f x) = true := by
          rcases foldl_max_cases f cs (f c) with h | ⟨x, hx, hfx⟩
          · rw [h] at hM2
            omega
          · refine ⟨x, hx, ?_⟩
            rw [hfx] at hM2
            simp [hM2]
        have hsome : (cs.find? (fun c => decide (M ≤ f c))).isSome = true := by
          rw [List.find?_isSome]
          exact hex
        obtain ⟨y, hy⟩ := Option.isSome_iff_exists.1 hsome
        rw [hy]
        rfl
      · have hMfc : M = f c := by omega
        have hall : ∀ x ∈ cs, f x ≤ (c, f c).2 := by
          intro x hx
          have h1 := foldl_max_mem_le f cs (f c) x hx
          show f x ≤ f c
          omega
        rw [scan_foldl_stay f cs (c, f c) hall, List.find?_cons]
        have hpc : decide (M ≤ f c) = true := by
          simp [hMfc]
        rw [hpc]
        rfl
    · rw [if_neg hp] at hM ⊢
      have hfst := ih p M hM hlt
      rw [hfst, List.find?_cons]
      have hpc : decide (M ≤ f c) = false := by
        simp only [decide_eq_false_iff_not, not_le]
        have := not_lt.1 hp
        omega
      rw [hpc]

/-- The loop body of the lookahead equals the pure scan step whenever the
hypothetical insert succeeds. -/
theorem minMaxBody_eq_some (b : Board) (t : Team) (roll : Nat) (p : Nat × Int)
    (c : Nat) (bc : Board) (h : b.insert t c roll = some bc) :
    minMaxBody b t roll p c =
      some (if p.2 < improv b t roll c then (c, improv b t roll c) else p) := by
  unfold minMaxBody improv scoreDiff
  rw [h]

/-- With every hypothetical insert succeeding, the option-valued fold of
the lookahead is the pure scan. -/
theorem foldlM_minMax (b : Board) (t : Team) (roll : Nat) (l : List Nat)
    (h : ∀ c ∈ l, ∃ bc, b.insert t c roll = some bc) :
    ∀ p, List.foldlM (minMaxBody b t roll) p l =
      some (List.foldl
        (fun q c => if q.2 < improv b t roll c then (c, improv b t roll c) else q) p l) := by
  induction l with
  | nil => intro p; rfl
  | cons c cs ih =>
    intro p
    obtain ⟨bc, hbc⟩ := h c (List.mem_cons_self _ _)
    rw [List.foldlM_cons, minMaxBody_eq_some b t roll p c bc hbc, List.foldl_cons]
    have hbind : ∀ (x : Nat × Int) (g : Nat × Int → Option (Nat × Int)),
        (some x >>= g) = g x := fun x g => rfl
    rw [hbind]
    exact ih (fun x hx => h x (List.mem_cons_of_mem _ hx)) _

/-- In an active state `strategy_min_max` reduces to its seeded fold. -/
theorem strategy_min_max_active (b : Board) (t : Team) (st : GameState)
    (roll draw : Nat) (hst : activeTeam st = some t) :
    strategy_min_max b st roll draw =
      (if (validAnswers b t).length = 0 then none
       else (List.foldlM (minMaxBody b t roll)
         ((validAnswers b t).getD (draw % (validAnswers b t).length) 0, (roll : Int))
         (validAnswers b t)).map Prod.fst) := by
  cases st with
  | Starting => cases hst
  | Done => cases hst
  | RedsTurn =>
    have ht : t = Team.Red := by
      have h2 : some Team.Red = some t := hst
      injection h2 with h2
      exact h2.symm
    subst ht
    rfl
  | BluesTurn =>
    have ht : t = Team.Blue := by
      have h2 : some Team.Blue = some t := hst
      injection h2 with h2
      exact h2.symm
    subst ht
    rfl

/-- C4: in an active state with a legal column available, the lookahead
scans the legal columns in ascending order, returns exactly the
declarative pick — the earliest legal column of maximal improvement when
some improvement strictly exceeds the roll-seeded threshold — and falls
back to the pre-chosen uniformly-random legal column when no column's
improvement strictly exceeds the roll. -/
theorem strategy_min_max_correct (b : Board) (st : GameState) (t : Team)
    (roll draw : Nat) (hwf : b.wf) (hst : activeTeam st = some t)
    (hne : validAnswers b t ≠ []) :
    List.Pairwise (fun x y => x < y) (validAnswers b t) ∧
    strategy_min_max b st roll draw = some (minMaxPick b t roll draw) ∧
    ((∀ c ∈ validAnswers b t, improv b t roll c ≤ (roll : Int)) →
      strategy_min_max b st roll draw =
        some ((validAnswers b t).getD (draw % (validAnswers b t).length) 0)) := by
  have hpair : List.Pairwise (fun x y => x < y) (validAnswers b t) := by
    rw [validAnswers]
    exact List.Pairwise.filter _ (List.pairwise_lt_range b.columns)
  have hins : ∀ c ∈ validAnswers b t, ∃ bc, b.insert t c roll = some bc := by
    intro c hmem
    rw [validAnswers, List.mem_filter, List.mem_range] at hmem
    obtain ⟨b2, j, he, -⟩ := insert_eq_some b t c roll hwf hmem.1 hmem.2
    exact ⟨b2, he⟩
  have hlen0 : ¬ ((validAnswers b t).length = 0) := by
    intro h
    exact hne (List.length_eq_zero.1 h)
  have hfold := foldlM_minMax b t roll (validAnswers b t) hins
    ((validAnswers b t).getD (draw % (validAnswers b t).length) 0, (roll : Int))
  have hmain : strategy_min_max b st roll draw =
      some ((List.foldl
        (fun q c => if q.2 < improv b t roll c then (c, improv b t roll c) else q)
        ((validAnswers b t).getD (draw % (validAnswers b t).length) 0, (roll : Int))
        (validAnswers b t)).1) := by
    rw [strategy_min_max_active b t st roll draw hst, if_neg hlen0, hfold]
    rfl
  have hsnd : (List.foldl
      (fun q c => if q.2 < improv b t roll c then (c, improv b t roll c) else q)
      ((validAnswers b t).getD (draw % (validAnswers b t).length) 0, (roll : Int))
      (validAnswers b t)).2 = bestImprove b t roll :=
    scan_foldl_snd (improv b t roll) (validAnswers b t) _
  have hseed : (roll : Int) ≤ bestImprove b t roll :=
    foldl_max_le_init (improv b t roll) (validAnswers b t) _
  refine ⟨hpair, ?_, ?_⟩
  · by_cases hcase : (roll : Int) < bestImprove b t roll
    · have hfst := scan_foldl_fst (improv b t roll) (validAnswers b t)
        ((validAnswers b t).getD (draw % (validAnswers b t).length) 0, (roll : Int))
        (bestImprove b t roll) hsnd hcase
      rw [hmain, hfst]
      simp only [minMaxPick, if_pos hcase]
    · have hall : ∀ c ∈ validAnswers b t, improv b t roll c ≤
          (((validAnswers b t).getD (draw % (validAnswers b t).length) 0,
            (roll : Int)) : Nat × Int).2 := by
        intro c hc
        have h1 := foldl_max_mem_le (improv b t roll) (validAnswers b t) (roll : Int) c hc
        show improv b t roll c ≤ (roll : Int)
        have h2 : bestImprove b t roll = (roll : Int) := by
          have := hseed
          omega
        rw [← h2]
        exact h1
      rw [hmain, scan_foldl_stay (improv b t roll) (validAnswers b t) _ hall]
      simp only [minMaxPick, if_neg hcase]
  · intro hle
    have hbest : bestImprove b t roll = (roll : Int) := by
      rcases foldl_max_cases (improv b t roll) (validAnswers b t) (roll : Int) with
        h | ⟨x, hx, hfx⟩
      · exact h
      · have := hle x hx
        have h2 : bestImprove b t roll = improv b t roll x := hfx
        omega
    have hall : ∀ c ∈ validAnswers b t, improv b t roll c ≤
        (((validAnswers b t).getD (draw % (validAnswers b t).length) 0,
          (roll : Int)) : Nat × Int).2 := by
      intro c hc
      exact hle c hc
    rw [hmain, scan_foldl_stay (improv b t roll) (validAnswers b t) _ hall]

/-- Closed instance of the lookahead contract: with three Blue 4s in
column 1 and a rolled 4, the bump makes column 1's improvement exceed
the roll. -/
theorem strategy_min_max_correct_witness :
    List.Pairwise (fun x y => x < y) (validAnswers bW Team.Red) ∧
    strategy_min_max bW GameState.RedsTurn 4 0 = some (minMaxPick bW Team.Red 4 0) ∧
    ((∀ c ∈ validAnswers bW Team.Red, improv bW Team.Red 4 c ≤ (4 : Int)) →
      strategy_min_max bW GameState.RedsTurn 4 0 =
        some ((validAnswers bW Team.Red).getD (0 % (validAnswers bW Team.Red).length) 0)) :=
  strategy_min_max_correct bW GameState.RedsTurn Team.Red 4 0 (by decide) rfl (by decide)

end DiceGame


/-- C10: the `Board` engine duplicated in `src/main.rs` is extensionally
equal to the one in `src/dice_game.rs`: on every team, column, value and
board contents the paired operations return identical results and
identical boards. -/
theorem MainSrc.board_copy_equivalent :
    (∀ columns rows, MainSrc.empty_board columns rows =
      DiceGame.Board.empty_board columns rows) ∧
    (∀ (b : DiceGame.Board) (t : DiceGame.Team) (c v : Nat),
      MainSrc.insert b t c v = b.insert t c v) ∧
    (∀ (b : DiceGame.Board) (t : DiceGame.Team) (c : Nat),
      MainSrc.has_space b t c = b.has_space t c) ∧
    (∀ (b : DiceGame.Board) (t : DiceGame.Team),
      MainSrc.is_board_side_filled b t = b.is_board_side_filled t) ∧
    (∀ (b : DiceGame.Board) (t : DiceGame.Team) (c : Nat),
      MainSrc.calculate_column_score b t c = b.calculate_column_score t c) ∧
    (∀ (b : DiceGame.Board) (t : DiceGame.Team),
      MainSrc.calculate_score b t = b.calculate_score t) :=
  ⟨fun _ _ => rfl, fun _ _ _ _ => rfl, fun _ _ _ => rfl, fun _ _ => rfl,
   fun _ _ _ => rfl, fun _ _ => rfl⟩
